import Mathlib

/-!
Shallow embedding of the input-value algebra of `src/juniper/src/ast.rs`:
the `InputValue` tree, constant folding (`into_const`), position-ignoring
equality (`unlocated_eq`), variable discovery (`referenced_variables`),
the `Display` rendering, and `Arguments::get`.

Scalars stay a type parameter `S`, as in the Rust source (`InputValue<S>`).
-/

/-- Modelled from the spec: a source position (`parser::SourcePosition` is not
under `src/`); an index/line/column triple, opaque to this layer. -/
structure SourcePosition where
  index : Nat
  line : Nat
  col : Nat
deriving DecidableEq, Repr

/-- Modelled from the spec: a source span (`parser::Span` is not under
`src/`); a start/end position pair. `stop` stands for the Rust field `end`,
which is a reserved word here. -/
structure Span where
  start : SourcePosition
  stop : SourcePosition
deriving DecidableEq, Repr

/-- Modelled from the spec: the located-value wrapper (`parser::Spanning` is
not under `src/`) — "a value of type T plus an optional source span". -/
structure Spanning (T : Type) where
  span : Option Span
  item : T
deriving DecidableEq, Repr

/-- Modelled from the spec: `Spanning::unlocated` — a span-free instance. -/
def Spanning.unlocated (item : T) : Spanning T :=
  { span := none, item := item }

/-- Modelled from the spec: `Spanning::map` transforms the payload keeping
the span. -/
def Spanning.map (s : Spanning T) (f : T → U) : Spanning U :=
  { span := s.span, item := f s.item }

/-- `InputValue<S>` of `ast.rs`: `Null`, `Scalar(S)`, `Enum(String)`,
`Variable(String)`, `List(Vec<Spanning<InputValue<S>>>)`,
`Object(Vec<(Spanning<String>, Spanning<InputValue<S>>)>)`. -/
inductive InputValue (S : Type) : Type where
  | Null : InputValue S
  | Scalar : S → InputValue S
  | Enum : String → InputValue S
  | Variable : String → InputValue S
  | List : List (Spanning (InputValue S)) → InputValue S
  | Object : List (Spanning String × Spanning (InputValue S)) → InputValue S

/-- Modelled from the spec: `executor::Variables` (not under `src/`), "a
name→InputValue mapping assembled from a request's variables payload";
modelled as an association list whose lookup takes the first match (a
hash map holds each name at most once, which this refines). -/
structure Variables (S : Type) where
  pairs : List (String × InputValue S)

/-- Modelled from the spec: map lookup, `values.get(&v)`. -/
def Variables.get (vs : Variables S) (n : String) : Option (InputValue S) :=
  (vs.pairs.find? fun p => p.1 == n).map Prod.snd

mutual

/-- `InputValue::into_const` (ast.rs:313-331): resolves variables against
`values`; `Variable` looks its name up (`None` when unbound); `List` maps
each element, substituting `Null` (`unwrap_or_else(Self::null)`) where the
element folds to `None`; `Object` keeps, via `filter_map`, exactly the
fields whose value folds to `Some`; other variants pass through. -/
def into_const : InputValue S → Variables S → Option (InputValue S)
  | .Variable v, values => values.get v
  | .List l, values => some (.List (into_const_list l values))
  | .Object o, values => some (.Object (into_const_object o values))
  | v, _ => some v

/-- The `List` arm's `l.into_iter().map(|s| s.map(|v|
v.into_const(values).unwrap_or_else(Self::null)))`, with `Spanning::map`
unfolded so the recursive call is visible to termination checking. -/
def into_const_list : List (Spanning (InputValue S)) → Variables S → List (Spanning (InputValue S))
  | [], _ => []
  | s :: t, values =>
      ⟨s.span, (into_const s.item values).getD .Null⟩ :: into_const_list t values

/-- The `Object` arm's `o.into_iter().filter_map(|(sk, sv)|
sv.and_then(|v| v.into_const(values)).map(|sv| (sk, sv)))`, with
`Spanning::and_then` (span kept, payload folded fallibly) unfolded. -/
def into_const_object :
    List (Spanning String × Spanning (InputValue S)) → Variables S →
    List (Spanning String × Spanning (InputValue S))
  | [], _ => []
  | (sk, sv) :: t, values =>
      match into_const sv.item values with
      | some v => (sk, ⟨sv.span, v⟩) :: into_const_object t values
      | none => into_const_object t values

end

mutual

/-- `InputValue::referenced_variables` (ast.rs:391-404): depth-first
collection of every variable name in the tree. -/
def referenced_variables : InputValue S → List String
  | .Variable name => [name]
  | .List l => referenced_variables_list l
  | .Object o => referenced_variables_object o
  | _ => []

/-- The `List` arm's `l.iter().flat_map(|v| v.item.referenced_variables())`. -/
def referenced_variables_list : List (Spanning (InputValue S)) → List String
  | [] => []
  | s :: t => referenced_variables s.item ++ referenced_variables_list t

/-- The `Object` arm's `o.iter().flat_map(|(_, v)| v.item.referenced_variables())`. -/
def referenced_variables_object : List (Spanning String × Spanning (InputValue S)) → List String
  | [] => []
  | (_, sv) :: t => referenced_variables sv.item ++ referenced_variables_object t

end

theorem Spanning.sizeOf_item_lt [SizeOf T] (s : Spanning T) : sizeOf s.item < sizeOf s := by
  cases s
  simp only [Spanning.mk.sizeOf_spec]
  omega

theorem sizeOf_snd_item_lt [SizeOf A] [SizeOf B] (e : A × Spanning B) :
    sizeOf e.2.item < sizeOf e := by
  obtain ⟨k, v⟩ := e
  have h := Spanning.sizeOf_item_lt v
  simp only [Prod.mk.sizeOf_spec]
  omega

mutual

/-- `InputValue::unlocated_eq` (ast.rs:408-431): structural comparison that
never reads spans. Note the `List`/`List` arm is `l1.iter().zip(l2.iter())
.all(...)` — `zip` truncates to the shorter list and there is no length
check; the `Object`/`Object` arm checks `o1.len() == o2.len()` and that
every left entry has some matching right entry. -/
def unlocated_eq [DecidableEq S] : InputValue S → InputValue S → Bool
  | .Null, .Null => true
  | .Scalar s1, .Scalar s2 => s1 == s2
  | .Enum s1, .Enum s2 => s1 == s2
  | .Variable s1, .Variable s2 => s1 == s2
  | .List l1, .List l2 => unlocated_eq_zip l1 l2
  | .Object o1, .Object o2 => (o1.length == o2.length) && unlocated_eq_all o1 o2
  | _, _ => false
termination_by a b => (sizeOf a, sizeOf b)
decreasing_by
  all_goals simp_wf
  all_goals exact Prod.Lex.left _ _ (by omega)

/-- `l1.iter().zip(l2.iter()).all(|(v1, v2)| v1.item.unlocated_eq(&v2.item))`:
once either list runs out the remaining pairs vanish and `all` is `true`. -/
def unlocated_eq_zip [DecidableEq S] :
    List (Spanning (InputValue S)) → List (Spanning (InputValue S)) → Bool
  | v1 :: t1, v2 :: t2 => unlocated_eq v1.item v2.item && unlocated_eq_zip t1 t2
  | _, _ => true
termination_by l1 l2 => (sizeOf l1, sizeOf l2)
decreasing_by
  all_goals simp_wf
  all_goals apply Prod.Lex.left
  all_goals first
    | omega
    | (have h1 := Spanning.sizeOf_item_lt v1; omega)

/-- `o1.iter().all(|(sk1, sv1)| ...)` over the left object's entries. -/
def unlocated_eq_all [DecidableEq S] :
    List (Spanning String × Spanning (InputValue S)) →
    List (Spanning String × Spanning (InputValue S)) → Bool
  | [], _ => true
  | e :: t, o2 => unlocated_eq_any e o2 && unlocated_eq_all t o2
termination_by o1 o2 => (sizeOf o1, sizeOf o2)
decreasing_by
  all_goals simp_wf
  all_goals exact Prod.Lex.left _ _ (by omega)

/-- `o2.iter().any(|(sk2, sv2)| sk1.item == sk2.item &&
sv1.item.unlocated_eq(&sv2.item))` for one left entry `e`. -/
def unlocated_eq_any [DecidableEq S] :
    Spanning String × Spanning (InputValue S) →
    List (Spanning String × Spanning (InputValue S)) → Bool
  | _, [] => false
  | e, f :: t => (e.1.item == f.1.item && unlocated_eq e.2.item f.2.item) || unlocated_eq_any e t
termination_by e o2 => (sizeOf e, sizeOf o2)
decreasing_by
  all_goals simp_wf
  all_goals first
    | exact Prod.Lex.right _ (by omega)
    | (apply Prod.Lex.left
       have h1 := sizeOf_snd_item_lt e
       omega)

end

/-- `Arguments<S>` of ast.rs:105-107, its `items` vector; the Rust key type
`Spanning<&str>` becomes `Spanning String`. -/
structure Arguments (S : Type) where
  items : List (Spanning String × Spanning (InputValue S))

/-- `Arguments::get` (ast.rs:594-600): `self.items.iter().filter(|&(k, _)|
k.item == key).map(|(_, v)| v).next()`. -/
def Arguments.get (a : Arguments S) (key : String) : Option (Spanning (InputValue S)) :=
  ((a.items.filter fun kv => kv.1.item == key).map fun kv => kv.2).head?

mutual

/-- `impl fmt::Display for InputValue` (ast.rs:433-463): `"null"` for
`Null`, the scalar's own rendering (here the parameter `showS`, standing
for the `ScalarValue` representation's `Display`) for `Scalar`, the bare
name for `Enum`, `$name` for `Variable`, and bracketed element loops for
`List`/`Object`. Literal braces are written with `\x7b`/`\x7d` escapes. -/
def display (showS : S → String) : InputValue S → String
  | .Null => "null"
  | .Scalar s => showS s
  | .Enum v => v
  | .Variable v => "$" ++ v
  | .List v => "[" ++ display_list showS v.length 0 v ++ "]"
  | .Object o => "\x7b" ++ display_object showS o.length 0 o ++ "\x7d"

/-- The `List` arm's loop `for (i, spanning) in v.iter().enumerate()`:
render the element, then `", "` when `i < v.len() - 1`; `len` is the
original length and `i` the index of the head of the remaining list. -/
def display_list (showS : S → String) (len : Nat) :
    Nat → List (Spanning (InputValue S)) → String
  | _, [] => ""
  | i, s :: t =>
      display showS s.item ++ (if i < len - 1 then ", " else "") ++
        display_list showS len (i + 1) t

/-- The `Object` arm's loop: `write!(f, "{}: ", k.item)`, render the value,
then `", "` when `i < o.len() - 1`. -/
def display_object (showS : S → String) (len : Nat) :
    Nat → List (Spanning String × Spanning (InputValue S)) → String
  | _, [] => ""
  | i, (k, v) :: t =>
      k.item ++ ": " ++ display showS v.item ++ (if i < len - 1 then ", " else "") ++
        display_object showS len (i + 1) t

end

/-- Modelled from the spec: "joined by `", "` with no trailing separator". -/
def joinSep : List String → String
  | [] => ""
  | [x] => x
  | x :: y :: t => x ++ ", " ++ joinSep (y :: t)

mutual

/-- Modelled from the spec: the canonical textual rendering of §4.3 —
`null` / scalar's own rendering / bare name / `$name` / `[e1, e2, …]` /
`\x7bk1: v1, k2: v2, …\x7d` with `", "` separators and storage-order keys.
Stated from the spec's words, to be compared with `display` (the source's
`Display` impl). -/
def render (showS : S → String) : InputValue S → String
  | .Null => "null"
  | .Scalar s => showS s
  | .Enum v => v
  | .Variable v => "$" ++ v
  | .List v => "[" ++ joinSep (render_items showS v) ++ "]"
  | .Object o => "\x7b" ++ joinSep (render_entries showS o) ++ "\x7d"

/-- The elements' renderings, in order. -/
def render_items (showS : S → String) : List (Spanning (InputValue S)) → List String
  | [] => []
  | s :: t => render showS s.item :: render_items showS t

/-- The `"key: value"` entries, in storage order. -/
def render_entries (showS : S → String) :
    List (Spanning String × Spanning (InputValue S)) → List String
  | [] => []
  | (k, v) :: t => (k.item ++ ": " ++ render showS v.item) :: render_entries showS t

end

mutual

/-- Span erasure: replaces every span in the tree (on list elements, object
keys and object values) with `none`, keeping everything else. Two trees are
"structurally identical up to spans" exactly when their erasures are equal. -/
def stripSpans : InputValue S → InputValue S
  | .List l => .List (stripSpans_list l)
  | .Object o => .Object (stripSpans_object o)
  | v => v

/-- Span erasure on list elements. -/
def stripSpans_list : List (Spanning (InputValue S)) → List (Spanning (InputValue S))
  | [] => []
  | s :: t => ⟨none, stripSpans s.item⟩ :: stripSpans_list t

/-- Span erasure on object entries. -/
def stripSpans_object :
    List (Spanning String × Spanning (InputValue S)) →
    List (Spanning String × Spanning (InputValue S))
  | [] => []
  | (k, v) :: t => (⟨none, k.item⟩, ⟨none, stripSpans v.item⟩) :: stripSpans_object t

end

mutual

/-- Member-wise induction principle for the nested `InputValue` tree: to
prove `P` everywhere it suffices to prove it on leaves and, for `List` and
`Object`, assuming it on every element's (resp. field value's) item. -/
def inductionOn {S : Type} {P : InputValue S → Prop}
    (hNull : P .Null) (hScalar : ∀ s, P (.Scalar s)) (hEnum : ∀ e, P (.Enum e))
    (hVar : ∀ n, P (.Variable n))
    (hList : ∀ l, (∀ s ∈ l, P s.item) → P (.List l))
    (hObj : ∀ o, (∀ p ∈ o, P p.2.item) → P (.Object o)) :
    ∀ v, P v
  | .Null => hNull
  | .Scalar s => hScalar s
  | .Enum e => hEnum e
  | .Variable n => hVar n
  | .List l => hList l (inductionOn_list hNull hScalar hEnum hVar hList hObj l)
  | .Object o => hObj o (inductionOn_object hNull hScalar hEnum hVar hList hObj o)

/-- `inductionOn` for every member of a list of spanned values. -/
def inductionOn_list {S : Type} {P : InputValue S → Prop}
    (hNull : P .Null) (hScalar : ∀ s, P (.Scalar s)) (hEnum : ∀ e, P (.Enum e))
    (hVar : ∀ n, P (.Variable n))
    (hList : ∀ l, (∀ s ∈ l, P s.item) → P (.List l))
    (hObj : ∀ o, (∀ p ∈ o, P p.2.item) → P (.Object o)) :
    ∀ l : List (Spanning (InputValue S)), ∀ s ∈ l, P s.item
  | [] => fun s hs => absurd hs (List.not_mem_nil s)
  | a :: t => fun s hs =>
      match List.mem_cons.mp hs with
      | .inl h => h ▸ inductionOn hNull hScalar hEnum hVar hList hObj a.item
      | .inr h => inductionOn_list hNull hScalar hEnum hVar hList hObj t s h

/-- `inductionOn` for every field value of an object entry list. -/
def inductionOn_object {S : Type} {P : InputValue S → Prop}
    (hNull : P .Null) (hScalar : ∀ s, P (.Scalar s)) (hEnum : ∀ e, P (.Enum e))
    (hVar : ∀ n, P (.Variable n))
    (hList : ∀ l, (∀ s ∈ l, P s.item) → P (.List l))
    (hObj : ∀ o, (∀ p ∈ o, P p.2.item) → P (.Object o)) :
    ∀ o : List (Spanning String × Spanning (InputValue S)), ∀ p ∈ o, P p.2.item
  | [] => fun p hp => absurd hp (List.not_mem_nil p)
  | a :: t => fun p hp =>
      match List.mem_cons.mp hp with
      | .inl h => h ▸ inductionOn hNull hScalar hEnum hVar hList hObj a.2.item
      | .inr h => inductionOn_object hNull hScalar hEnum hVar hList hObj t p h

end

/-! ## Helper lemmas about constant folding -/

theorem into_const_list_eq_map (l : List (Spanning (InputValue S))) (vars : Variables S) :
    into_const_list l vars =
      l.map fun s => Spanning.mk s.span ((into_const s.item vars).getD .Null) := by
  induction l with
  | nil => rfl
  | cons s t ih => simp [into_const_list, ih]

theorem into_const_object_eq (o : List (Spanning String × Spanning (InputValue S)))
    (vars : Variables S) :
    into_const_object o vars =
      (o.filter fun p => (into_const p.2.item vars).isSome).map
        fun p => (p.1, Spanning.mk p.2.span ((into_const p.2.item vars).getD .Null)) := by
  induction o with
  | nil => rfl
  | cons p t ih =>
      obtain ⟨sk, sv⟩ := p
      simp only [into_const_object]
      cases h : into_const sv.item vars with
      | some v => simp [List.filter_cons, h, ih]
      | none => simp [List.filter_cons, h, ih]

/-- C1: for every `InputValue::List(items)` and every variables map,
`into_const` returns `Some(List(result))` where `result` has exactly the
length of `items` and each position holds the folding of the corresponding
item, with `Null` substituted where the item folds to `None` — no item is
dropped. -/
theorem into_const_list_keeps_positions (l : List (Spanning (InputValue S)))
    (vars : Variables S) :
    ∃ r, into_const (.List l) vars = some (.List r) ∧ r.length = l.length ∧
      ∀ i : Nat, r[i]? =
        (l[i]?).map fun s => Spanning.mk s.span ((into_const s.item vars).getD .Null) := by
  refine ⟨into_const_list l vars, rfl, ?_, ?_⟩
  · rw [into_const_list_eq_map]
    exact List.length_map _ _
  · intro i
    rw [into_const_list_eq_map]
    exact List.getElem?_map _ _ _

/-- C2: for every `InputValue::Object(fields)` and every variables map,
`into_const` returns `Some(Object(result))` where `result` consists of
exactly those input fields whose value folds to `Some`, each paired with
its folded value; fields folding to `None` are omitted, and every result
key comes from the input (nothing is added). -/
theorem into_const_object_keeps_some_fields (o : List (Spanning String × Spanning (InputValue S)))
    (vars : Variables S) :
    ∃ r, into_const (.Object o) vars = some (.Object r) ∧
      r = (o.filter fun p => (into_const p.2.item vars).isSome).map
            (fun p => (p.1, Spanning.mk p.2.span ((into_const p.2.item vars).getD .Null))) ∧
      ∀ q ∈ r, q.1 ∈ o.map Prod.fst := by
  refine ⟨into_const_object o vars, rfl, into_const_object_eq o vars, ?_⟩
  intro q hq
  rw [into_const_object_eq] at hq
  obtain ⟨p, hp, hq⟩ := List.mem_map.mp hq
  have hpo : p ∈ o := List.mem_of_mem_filter hp
  subst hq
  exact List.mem_map.mpr ⟨p, hpo, rfl⟩

/-- C3: `into_const` on `Variable(name)` returns `Some` of the bound value
exactly when `name` is bound in the map, and `None` exactly when it is
unbound; `Null`, `Scalar` and `Enum` pass through unchanged. -/
theorem into_const_variable_and_leaves (vars : Variables S) (n : String) :
    ((into_const (.Variable n) vars = none) ↔ ∀ p ∈ vars.pairs, p.1 ≠ n) ∧
    (∀ w, into_const (.Variable n) vars = some w → (n, w) ∈ vars.pairs) ∧
    (∀ p ∈ vars.pairs, p.1 = n → ∃ w, into_const (.Variable n) vars = some w) ∧
    into_const InputValue.Null vars = some .Null ∧
    (∀ s : S, into_const (.Scalar s) vars = some (.Scalar s)) ∧
    (∀ e : String, into_const (.Enum e) vars = some (.Enum e)) := by
  refine ⟨?_, ?_, ?_, rfl, fun _ => rfl, fun _ => rfl⟩
  · simp [into_const, Variables.get, List.find?_eq_none]
  · intro w h
    simp only [into_const, Variables.get, Option.map_eq_some'] at h
    obtain ⟨a, hfind, hsnd⟩ := h
    have hmem := List.mem_of_find?_eq_some hfind
    have hkey := List.find?_some hfind
    obtain ⟨a1, a2⟩ := a
    simp only [beq_iff_eq] at hkey
    simp only at hsnd
    subst hkey
    subst hsnd
    exact hmem
  · intro p hp hpn
    have : (vars.pairs.find? fun q => q.1 == n).isSome :=
      List.find?_isSome.mpr ⟨p, hp, by simp [hpn]⟩
    obtain ⟨a, ha⟩ := Option.isSome_iff_exists.mp this
    exact ⟨a.2, by simp [into_const, Variables.get, ha]⟩

/-- C9: on every `List` and `Object`, `into_const` keeps each surviving
element's or field's original spans (list element spans pointwise; for
objects, the whole key `Spanning` and the value span) and keeps the
surviving entries in their input order. -/
theorem into_const_preserves_spans_and_order (l : List (Spanning (InputValue S)))
    (o : List (Spanning String × Spanning (InputValue S))) (vars : Variables S) :
    (∃ r, into_const (.List l) vars = some (.List r) ∧
      r.map Spanning.span = l.map Spanning.span) ∧
    (∃ r2, into_const (.Object o) vars = some (.Object r2) ∧
      (r2.map fun p => (p.1, p.2.span)).Sublist (o.map fun p => (p.1, p.2.span))) := by
  constructor
  · refine ⟨into_const_list l vars, rfl, ?_⟩
    rw [into_const_list_eq_map, List.map_map]
    rfl
  · refine ⟨into_const_object o vars, rfl, ?_⟩
    rw [into_const_object_eq, List.map_map]
    exact (List.filter_sublist o).map _

/-! ## Variable-free folding (C5) -/

theorem referenced_variables_list_eq_nil (l : List (Spanning (InputValue S))) :
    referenced_variables_list l = [] ↔ ∀ s ∈ l, referenced_variables s.item = [] := by
  induction l with
  | nil => simp [referenced_variables_list]
  | cons s t ih => simp [referenced_variables_list, ih]

theorem referenced_variables_object_eq_nil (o : List (Spanning String × Spanning (InputValue S))) :
    referenced_variables_object o = [] ↔ ∀ p ∈ o, referenced_variables p.2.item = [] := by
  induction o with
  | nil => simp [referenced_variables_object]
  | cons p t ih =>
      obtain ⟨sk, sv⟩ := p
      simp [referenced_variables_object, ih]

theorem into_const_list_id (l : List (Spanning (InputValue S))) (vars : Variables S)
    (h : ∀ s ∈ l, into_const s.item vars = some s.item) : into_const_list l vars = l := by
  induction l with
  | nil => rfl
  | cons s t ih =>
      simp [into_const_list, h s (List.mem_cons_self s t),
        ih fun x hx => h x (List.mem_cons_of_mem s hx)]

theorem into_const_object_id (o : List (Spanning String × Spanning (InputValue S)))
    (vars : Variables S) (h : ∀ p ∈ o, into_const p.2.item vars = some p.2.item) :
    into_const_object o vars = o := by
  induction o with
  | nil => rfl
  | cons p t ih =>
      obtain ⟨sk, sv⟩ := p
      have hp := h (sk, sv) (List.mem_cons_self _ t)
      simp only at hp
      simp [into_const_object, hp, ih fun x hx => h x (List.mem_cons_of_mem _ hx)]

/-- C5: folding a value that references no variables is the identity (up to
cloning): if `referenced_variables v` is empty then `into_const v vars`
returns `Some v` for every variables map. -/
theorem into_const_of_no_variables (v : InputValue S) :
    ∀ vars : Variables S, referenced_variables v = [] → into_const v vars = some v := by
  induction v using inductionOn with
  | hNull => exact fun _ _ => rfl
  | hScalar s => exact fun _ _ => rfl
  | hEnum e => exact fun _ _ => rfl
  | hVar n => intro vars h; simp [referenced_variables] at h
  | hList l ih =>
      intro vars h
      simp only [referenced_variables] at h
      have hall := (referenced_variables_list_eq_nil l).mp h
      simp only [into_const, Option.some.injEq, InputValue.List.injEq]
      exact into_const_list_id l vars fun s hs => ih s hs vars (hall s hs)
  | hObj o ih =>
      intro vars h
      simp only [referenced_variables] at h
      have hall := (referenced_variables_object_eq_nil o).mp h
      simp only [into_const, Option.some.injEq, InputValue.Object.injEq]
      exact into_const_object_id o vars fun p hp => ih p hp vars (hall p hp)

/-- Witness for C5 at a concrete variable-free value. -/
theorem into_const_of_no_variables_witness :
    into_const (.List [Spanning.mk none (.Scalar (2 : Int))]) ⟨[]⟩ =
      some (.List [Spanning.mk none (.Scalar 2)]) :=
  into_const_of_no_variables _ _ rfl

/-! ## List equality under `unlocated_eq` (C4) -/

theorem unlocated_eq_zip_eq_all [DecidableEq S] :
    ∀ l1 l2 : List (Spanning (InputValue S)),
      unlocated_eq_zip l1 l2 = (l1.zip l2).all fun p => unlocated_eq p.1.item p.2.item
  | [], l2 => by cases l2 <;> simp [unlocated_eq_zip]
  | v1 :: t1, [] => by simp [unlocated_eq_zip]
  | v1 :: t1, v2 :: t2 => by
      simp [unlocated_eq_zip, unlocated_eq_zip_eq_all t1 t2]

/-- C4 counterexample: the code's `List`/`List` arm zips without a length
check, so a one-element list compares `unlocated_eq`-equal to a two-element
list even though the lengths differ. -/
theorem unlocated_eq_list_length_cex :
    unlocated_eq (S := Int) (.List [Spanning.mk none .Null])
        (.List [Spanning.mk none .Null, Spanning.mk none .Null]) = true ∧
      [Spanning.mk none (InputValue.Null (S := Int))].length ≠
        [Spanning.mk none (InputValue.Null (S := Int)), Spanning.mk none .Null].length := by
  constructor
  · simp [unlocated_eq, unlocated_eq_zip]
  · simp

/-- C4 (amended): two `List` values are `unlocated_eq` iff the element
pairs of their zip — i.e. positions up to the shorter length — are
pairwise recursively `unlocated_eq`; equal length is not required. -/
theorem unlocated_eq_list_iff [DecidableEq S] (l1 l2 : List (Spanning (InputValue S))) :
    unlocated_eq (.List l1) (.List l2) = true ↔
      ∀ p ∈ l1.zip l2, unlocated_eq p.1.item p.2.item = true := by
  simp [unlocated_eq, unlocated_eq_zip_eq_all, List.all_eq_true]

/-! ## Object equality under `unlocated_eq` (C6) -/

theorem unlocated_eq_any_iff [DecidableEq S]
    (e : Spanning String × Spanning (InputValue S)) :
    ∀ o2 : List (Spanning String × Spanning (InputValue S)),
      unlocated_eq_any e o2 = true ↔
        ∃ f ∈ o2, e.1.item = f.1.item ∧ unlocated_eq e.2.item f.2.item = true
  | [] => by simp [unlocated_eq_any]
  | f :: t => by
      simp only [unlocated_eq_any, Bool.or_eq_true, Bool.and_eq_true, beq_iff_eq,
        unlocated_eq_any_iff e t, List.mem_cons]
      constructor
      · rintro (⟨hk, hv⟩ | ⟨g, hg, hk, hv⟩)
        · exact ⟨f, .inl rfl, hk, hv⟩
        · exact ⟨g, .inr hg, hk, hv⟩
      · rintro ⟨g, rfl | hg, hk, hv⟩
        · exact .inl ⟨hk, hv⟩
        · exact .inr ⟨g, hg, hk, hv⟩

theorem unlocated_eq_all_iff [DecidableEq S] :
    ∀ o1 o2 : List (Spanning String × Spanning (InputValue S)),
      unlocated_eq_all o1 o2 = true ↔ ∀ e ∈ o1, unlocated_eq_any e o2 = true
  | [], o2 => by simp [unlocated_eq_all]
  | e :: t, o2 => by
      simp [unlocated_eq_all, unlocated_eq_all_iff t o2]

/-- C6: two `Object` values are `unlocated_eq` iff their entry lists have
the same length and every left entry has at least one right entry with an
equal key and a recursively `unlocated_eq` value — order-independent,
any-match per left entry. -/
theorem unlocated_eq_object_iff [DecidableEq S]
    (o1 o2 : List (Spanning String × Spanning (InputValue S))) :
    unlocated_eq (.Object o1) (.Object o2) = true ↔
      o1.length = o2.length ∧
        ∀ e ∈ o1, ∃ f ∈ o2, e.1.item = f.1.item ∧ unlocated_eq e.2.item f.2.item = true := by
  simp [unlocated_eq, Bool.and_eq_true, unlocated_eq_all_iff, unlocated_eq_any_iff]

/-! ## Span-independence of `unlocated_eq` (C7) -/

theorem bool_eq_of_iff {a b : Bool} (h : a = true ↔ b = true) : a = b := by
  cases a <;> cases b <;> simp_all

theorem stripSpans_list_eq_map (l : List (Spanning (InputValue S))) :
    stripSpans_list l = l.map fun s => Spanning.mk none (stripSpans s.item) := by
  induction l with
  | nil => rfl
  | cons s t ih => simp [stripSpans_list, ih]

theorem stripSpans_object_eq_map (o : List (Spanning String × Spanning (InputValue S))) :
    stripSpans_object o =
      o.map fun p => (Spanning.mk none p.1.item, Spanning.mk none (stripSpans p.2.item)) := by
  induction o with
  | nil => rfl
  | cons p t ih =>
      obtain ⟨k, v⟩ := p
      simp [stripSpans_object, ih]

theorem unlocated_eq_zip_refl [DecidableEq S] (l : List (Spanning (InputValue S)))
    (h : ∀ s ∈ l, unlocated_eq s.item s.item = true) : unlocated_eq_zip l l = true := by
  induction l with
  | nil => simp [unlocated_eq_zip]
  | cons s t ih =>
      simp [unlocated_eq_zip, h s (List.mem_cons_self s t),
        ih fun x hx => h x (List.mem_cons_of_mem s hx)]

theorem unlocated_eq_refl [DecidableEq S] (a : InputValue S) : unlocated_eq a a = true := by
  induction a using inductionOn with
  | hNull => simp [unlocated_eq]
  | hScalar s => simp [unlocated_eq]
  | hEnum e => simp [unlocated_eq]
  | hVar n => simp [unlocated_eq]
  | hList l ih =>
      simp only [unlocated_eq]
      exact unlocated_eq_zip_refl l ih
  | hObj o ih =>
      simp only [unlocated_eq, Bool.and_eq_true, beq_self_eq_true, true_and]
      exact (unlocated_eq_all_iff o o).mpr fun e he =>
        (unlocated_eq_any_iff e o).mpr ⟨e, he, rfl, ih e he⟩

theorem unlocated_eq_zip_strip [DecidableEq S] :
    ∀ l1 : List (Spanning (InputValue S)),
      (∀ s ∈ l1, ∀ b, unlocated_eq (stripSpans s.item) (stripSpans b) = unlocated_eq s.item b) →
      ∀ l2, unlocated_eq_zip (stripSpans_list l1) (stripSpans_list l2) = unlocated_eq_zip l1 l2
  | [] => fun _ l2 => by cases l2 <;> simp [stripSpans_list, unlocated_eq_zip]
  | v1 :: t1 => fun ih l2 => by
      cases l2 with
      | nil => simp [stripSpans_list, unlocated_eq_zip]
      | cons v2 t2 =>
          simp only [stripSpans_list, unlocated_eq_zip]
          rw [ih v1 (List.mem_cons_self v1 t1) v2.item,
            unlocated_eq_zip_strip t1 (fun x hx b => ih x (List.mem_cons_of_mem v1 hx) b) t2]

theorem unlocated_eq_all_strip [DecidableEq S]
    (o1 o2 : List (Spanning String × Spanning (InputValue S)))
    (ih : ∀ p ∈ o1, ∀ b,
      unlocated_eq (stripSpans p.2.item) (stripSpans b) = unlocated_eq p.2.item b) :
    unlocated_eq_all (stripSpans_object o1) (stripSpans_object o2) = unlocated_eq_all o1 o2 := by
  apply bool_eq_of_iff
  rw [unlocated_eq_all_iff, unlocated_eq_all_iff, stripSpans_object_eq_map,
    stripSpans_object_eq_map]
  constructor
  · intro h e he
    have h' := h _ (List.mem_map.mpr ⟨e, he, rfl⟩)
    rw [unlocated_eq_any_iff] at h'
    obtain ⟨f', hf', hk, hv⟩ := h'
    obtain ⟨f, hf, rfl⟩ := List.mem_map.mp hf'
    rw [unlocated_eq_any_iff]
    refine ⟨f, hf, hk, ?_⟩
    rw [← ih e he f.2.item]
    exact hv
  · intro h e' he'
    obtain ⟨e, he, rfl⟩ := List.mem_map.mp he'
    obtain ⟨f, hf, hk, hv⟩ := (unlocated_eq_any_iff e o2).mp (h e he)
    rw [unlocated_eq_any_iff]
    refine ⟨(Spanning.mk none f.1.item, Spanning.mk none (stripSpans f.2.item)),
      List.mem_map.mpr ⟨f, hf, rfl⟩, hk, ?_⟩
    show unlocated_eq (stripSpans e.2.item) (stripSpans f.2.item) = true
    rw [ih e he f.2.item]
    exact hv

theorem unlocated_eq_strip [DecidableEq S] (a : InputValue S) :
    ∀ b, unlocated_eq (stripSpans a) (stripSpans b) = unlocated_eq a b := by
  induction a using inductionOn with
  | hNull => intro b; cases b <;> simp [stripSpans, unlocated_eq]
  | hScalar s => intro b; cases b <;> simp [stripSpans, unlocated_eq]
  | hEnum e => intro b; cases b <;> simp [stripSpans, unlocated_eq]
  | hVar n => intro b; cases b <;> simp [stripSpans, unlocated_eq]
  | hList l ih =>
      intro b
      cases b with
      | List l2 =>
          simp only [stripSpans, unlocated_eq]
          exact unlocated_eq_zip_strip l ih l2
      | Null => simp [stripSpans, unlocated_eq]
      | Scalar s => simp [stripSpans, unlocated_eq]
      | Enum e => simp [stripSpans, unlocated_eq]
      | Variable n => simp [stripSpans, unlocated_eq]
      | Object o2 => simp [stripSpans, unlocated_eq]
  | hObj o ih =>
      intro b
      cases b with
      | Object o2 =>
          simp only [stripSpans, unlocated_eq]
          rw [unlocated_eq_all_strip o o2 ih, stripSpans_object_eq_map,
            stripSpans_object_eq_map, List.length_map, List.length_map]
      | Null => simp [stripSpans, unlocated_eq]
      | Scalar s => simp [stripSpans, unlocated_eq]
      | Enum e => simp [stripSpans, unlocated_eq]
      | Variable n => simp [stripSpans, unlocated_eq]
      | List l2 => simp [stripSpans, unlocated_eq]

/-- C7: `unlocated_eq` never reads span metadata — any two trees that are
structurally identical (equal after erasing every span) compare equal,
whatever spans they carry. -/
theorem unlocated_eq_ignores_spans [DecidableEq S] (a b : InputValue S)
    (h : stripSpans a = stripSpans b) : unlocated_eq a b = true := by
  rw [← unlocated_eq_strip a b, h]
  exact unlocated_eq_refl _

/-- Witness for C7: the same one-element list with and without a span. -/
theorem unlocated_eq_ignores_spans_witness :
    unlocated_eq (S := Int)
      (.List [Spanning.mk (some ⟨⟨0, 0, 0⟩, ⟨1, 0, 1⟩⟩) .Null])
      (.List [Spanning.mk none .Null]) = true :=
  unlocated_eq_ignores_spans _ _ rfl

/-! ## Canonical textual rendering (C8) -/

theorem display_list_eq_joinSep (showS : S → String) :
    ∀ (t : List (Spanning (InputValue S))) (i len : Nat), len = i + t.length →
      (∀ s ∈ t, display showS s.item = render showS s.item) →
      display_list showS len i t = joinSep (render_items showS t)
  | [], _, _, _, _ => by simp [display_list, render_items, joinSep]
  | [s], i, len, hlen, h => by
      have hi : ¬ i < len - 1 := by simp at hlen; omega
      simp [display_list, render_items, joinSep, hi, h s (List.mem_cons_self s [])]
  | s :: s2 :: t, i, len, hlen, h => by
      have hi : i < len - 1 := by simp at hlen; omega
      have ih := display_list_eq_joinSep showS (s2 :: t) (i + 1) len
        (by simp at hlen ⊢; omega) (fun x hx => h x (List.mem_cons_of_mem s hx))
      simp only [display_list] at ih ⊢
      rw [if_pos hi, h s (List.mem_cons_self s (s2 :: t)), ih]
      simp only [render_items, joinSep]

theorem display_object_eq_joinSep (showS : S → String) :
    ∀ (t : List (Spanning String × Spanning (InputValue S))) (i len : Nat),
      len = i + t.length →
      (∀ p ∈ t, display showS p.2.item = render showS p.2.item) →
      display_object showS len i t = joinSep (render_entries showS t)
  | [], _, _, _, _ => by simp [display_object, render_entries, joinSep]
  | [(k, v)], i, len, hlen, h => by
      have hi : ¬ i < len - 1 := by simp at hlen; omega
      simp [display_object, render_entries, joinSep, hi,
        h (k, v) (List.mem_cons_self (k, v) [])]
  | (k, v) :: p2 :: t, i, len, hlen, h => by
      have hi : i < len - 1 := by simp at hlen; omega
      have ih := display_object_eq_joinSep showS (p2 :: t) (i + 1) len
        (by simp at hlen ⊢; omega) (fun x hx => h x (List.mem_cons_of_mem (k, v) hx))
      obtain ⟨k2, v2⟩ := p2
      simp only [display_object] at ih ⊢
      rw [if_pos hi, h (k, v) (List.mem_cons_self (k, v) ((k2, v2) :: t)), ih]
      simp only [render_entries, joinSep]

/-- C8: the source's `Display` rendering agrees, on every `InputValue`,
with the spec's canonical textual grammar (`render`): `null`, the scalar's
own rendering, the bare enum name, `$name`, `[e1, e2, …]` and
`\x7bk1: v1, …\x7d` with `", "` separators, no trailing separator, and
keys in storage order. -/
theorem display_eq_render (showS : S → String) (v : InputValue S) :
    display showS v = render showS v := by
  induction v using inductionOn with
  | hNull => rfl
  | hScalar s => rfl
  | hEnum e => rfl
  | hVar n => rfl
  | hList l ih =>
      simp only [display, render]
      rw [display_list_eq_joinSep showS l 0 l.length (by omega) ih]
  | hObj o ih =>
      simp only [display, render]
      rw [display_object_eq_joinSep showS o 0 o.length (by omega) ih]

/-! ## `Arguments::get` (C10) -/

theorem filter_map_head_eq_find (items : List (Spanning String × Spanning (InputValue S)))
    (key : String) :
    ((items.filter fun kv => kv.1.item == key).map fun kv => kv.2).head? =
      (items.find? fun p => p.1.item == key).map Prod.snd := by
  induction items with
  | nil => rfl
  | cons p t ih =>
      cases h : (p.1.item == key) with
      | true => simp [List.filter_cons, List.find?_cons, h]
      | false => simp [List.filter_cons, List.find?_cons, h, ih]

/-- C10: `Arguments::get` returns `Some` of the value of the first entry in
storage order whose key equals the given key (earliest entry wins with
duplicate keys), and `None` exactly when no entry's key matches. -/
theorem arguments_get_first_match (a : Arguments S) (key : String) :
    a.get key = (a.items.find? fun p => p.1.item == key).map Prod.snd ∧
      (a.get key = none ↔ ∀ p ∈ a.items, p.1.item ≠ key) := by
  have heq := filter_map_head_eq_find a.items key
  refine ⟨heq, ?_⟩
  show (((a.items.filter fun kv => kv.1.item == key).map fun kv => kv.2).head? = none) ↔ _
  rw [heq]
  simp [List.find?_eq_none]
